import Mathlib

/-!
Verification of the ArUco marker-dictionary core (`modules/aruco`):
the bit-grid/byte codec, rotation handling, Hamming-distance queries,
marker identification and custom dictionary generation.

The repository ships only the public header `dictionary.hpp` (class and
function declarations with their documentation) together with two sample
programs that call the module.  The bodies of `identify`,
`getDistanceToId`, `getByteListFromBits`, `getBitsFromByteList`,
`generateCustomDictionary` and the predefined-dictionary tables are not
part of the sources, so the operations below are modelled from the
specification's description of those operations and of the storage layout
documented in the header.
-/

namespace Aruco

/-- A square bit grid of side `S`: entry `b i j` is the bit at row `i`,
column `j`. -/
def Grid (S : Nat) : Type := Fin S → Fin S → Bool

/-- Modelled from the spec: rotation of a marker grid is a 90-degree
clockwise turn; cell `(i, j)` of the turned grid is cell `(S-1-j, i)` of
the original. -/
def rotateClockwise {S : Nat} (b : Grid S) : Grid S :=
  fun i j => b j.rev i

/-- Iterated rotation: `rotN k b` applies the clockwise rotation `k`
times. -/
def rotN {S : Nat} : Nat → Grid S → Grid S
  | 0, b => b
  | k + 1, b => rotateClockwise (rotN k b)

/-- Modelled from the spec: the row-major flattening of a square grid
(row `i`, column `j` becomes bit number `S*i + j`). -/
def gridToBits {S : Nat} (b : Grid S) : List Bool :=
  List.ofFn (fun n : Fin (S * S) => b n.divNat n.modNat)

/-- Bit number `n` of a flattened bit list; positions past the end read
as `false` (the zero padding of the final byte). -/
def bitAt (l : List Bool) (n : Nat) : Bool := l.getD n false

/-- Modelled from the spec: byte number `k` of the packed bit list; the
eight bits `8k .. 8k+7` are packed most-significant-bit first. -/
def packedByte (l : List Bool) (k : Nat) : Nat :=
  128 * (bitAt l (8 * k)).toNat + 64 * (bitAt l (8 * k + 1)).toNat +
  32 * (bitAt l (8 * k + 2)).toNat + 16 * (bitAt l (8 * k + 3)).toNat +
  8 * (bitAt l (8 * k + 4)).toNat + 4 * (bitAt l (8 * k + 5)).toNat +
  2 * (bitAt l (8 * k + 6)).toNat + (bitAt l (8 * k + 7)).toNat

/-- Modelled from the spec: pack a bit list row-major into
`ceil(length/8)` bytes, most-significant-bit first, the last byte
zero-padded in its low-order bits. -/
def packBits (l : List Bool) : List Nat :=
  (List.range ((l.length + 7) / 8)).map (packedByte l)

/-- Bit number `n` of a byte list, reading each byte
most-significant-bit first (the inverse view of `packBits`). -/
def byteListBit (bytes : List Nat) (n : Nat) : Bool :=
  Nat.testBit (bytes.getD (n / 8) 0) (7 - n % 8)

/-- Modelled from the spec: `getBitsFromByteList` (missing body,
declared in `dictionary.hpp`) decodes a 0-degree byte sequence back into
the square bit grid of side `markerSize`. -/
def getBitsFromByteList (byteList : List Nat) (S : Nat) : Grid S :=
  fun i j => byteListBit byteList (S * i.val + j.val)

/-- The four per-rotation byte sequences of one marker; index `r` holds
the bytes of the grid rotated `r` times by 90 degrees clockwise. -/
def MarkerRows : Type := Fin 4 → List Nat

/-- Modelled from the spec: `getByteListFromBits` (missing body,
declared in `dictionary.hpp`) encodes a grid into its four rotation byte
sequences. -/
def getByteListFromBits {S : Nat} (b : Grid S) : MarkerRows :=
  fun r => packBits (gridToBits (rotN r.val b))

/-- Modelled from the spec: the per-byte popcount used by the byte-wise
Hamming distance (the look-up-table entry for one byte). -/
def bytePopcount (x : Nat) : Nat :=
  (Nat.testBit x 0).toNat + (Nat.testBit x 1).toNat + (Nat.testBit x 2).toNat +
  (Nat.testBit x 3).toNat + (Nat.testBit x 4).toNat + (Nat.testBit x 5).toNat +
  (Nat.testBit x 6).toNat + (Nat.testBit x 7).toNat

/-- Modelled from the spec: byte-wise Hamming distance between two byte
sequences, summing the popcount of the xor of corresponding bytes. -/
def hammingBytes (xs ys : List Nat) : Nat :=
  ((xs.zip ys).map (fun q => bytePopcount (q.1 ^^^ q.2))).sum

/-- Indicator of a bit difference at position `n` of two flattened bit
lists. -/
def diffInd (l₁ l₂ : List Bool) (n : Nat) : Nat :=
  if bitAt l₁ n = bitAt l₂ n then 0 else 1

/-- Naive bit-by-bit reference Hamming distance between two grids,
counting differing cells one at a time (written from the spec's words for
the cross-check of claim C4). -/
def naiveHamming {S : Nat} (a c : Grid S) : Nat :=
  ∑ i : Fin S, ∑ j : Fin S, (if a i j = c i j then 0 else 1)

/-- Naive reference for `getDistanceToId` (from the spec's words):
minimum over the four rotations of the marker grid when `allRotations`
is set, otherwise the distance to rotation 0 only. -/
def naiveDistanceToMarker {S : Nat} (bits m : Grid S) (allRotations : Bool) : Nat :=
  if allRotations then
    min (min (naiveHamming bits (rotN 0 m)) (naiveHamming bits (rotN 1 m)))
        (min (naiveHamming bits (rotN 2 m)) (naiveHamming bits (rotN 3 m)))
  else naiveHamming bits (rotN 0 m)

/-- Modelled from the spec: a dictionary stores one row of four rotation
byte sequences per marker (the row index is the marker id), the common
grid side `markerSize`, and the correction budget `maxCorrectionBits`. -/
structure Dictionary where
  bytesList : List MarkerRows
  markerSize : Nat
  maxCorrectionBits : Nat

/-- Modelled from the spec: the `Dictionary` constructor (missing body,
declared in `dictionary.hpp` with defaults `bytes = 0`, `markerSize = 0`,
`dictsize = 0`, `maxcorr = 0`) parses a flat rotation-pre-encoded buffer
of `dictsize` markers, each `ceil(markerSize^2/8)` bytes in four
channels (one channel per rotation). -/
def Dictionary.ofBuffer (bytes : List Nat) (markerSize dictsize maxcorr : Nat) :
    Dictionary :=
  ⟨(List.range dictsize).map (fun i => fun r : Fin 4 =>
      (List.range ((markerSize * markerSize + 7) / 8)).map
        (fun j => bytes.getD (4 * (i * ((markerSize * markerSize + 7) / 8) + j) + r.val) 0)),
    markerSize, maxcorr⟩

/-- Stored byte sequence of marker `i`, rotation `r` (markers past the
end read as an empty row). -/
def storedBytes (markers : List MarkerRows) (i : Nat) (r : Fin 4) : List Nat :=
  (markers.getD i (fun _ => [])) r

/-- Hamming distance from the packed observed grid to the stored bytes
of marker `id` at rotation `rot`. -/
def storedDist (d : Dictionary) {S : Nat} (b : Grid S) (id : Nat) (rot : Fin 4) : Nat :=
  hammingBytes (packBits (gridToBits b)) (storedBytes d.bytesList id rot)

/-- All identification candidates: one triple
`(distance, id, rotation)` per stored marker and rotation, listed by
increasing id, then increasing rotation. -/
def candidateList (markers : List MarkerRows) (obs : List Nat) :
    List (Nat × Nat × Nat) :=
  (List.range markers.length).flatMap (fun i =>
    (List.finRange 4).map (fun r =>
      (hammingBytes obs (storedBytes markers i r), i, r.val)))

/-- Strict candidate order: smaller distance first, ties broken by lower
id, then by lower rotation index (the spec's deterministic tie-break). -/
def candLtP (c b : Nat × Nat × Nat) : Prop :=
  c.1 < b.1 ∨ (c.1 = b.1 ∧ (c.2.1 < b.2.1 ∨ (c.2.1 = b.2.1 ∧ c.2.2 < b.2.2)))

instance (c b : Nat × Nat × Nat) : Decidable (candLtP c b) := by
  unfold candLtP; infer_instance

/-- Modelled from the spec: scan all candidates keeping the one that is
strictly better in the `candLtP` order (lowest distance, then lowest id,
then lowest rotation). -/
def pickBest : List (Nat × Nat × Nat) → Option (Nat × Nat × Nat)
  | [] => none
  | c :: rest =>
      some (rest.foldl (fun best c' => if candLtP c' best then c' else best) c)

/-- Modelled from the spec: `identify` (missing body, declared in
`dictionary.hpp`).  A `maxCorrectionRate` outside `[0,1]` is a usage
error reported at the call boundary; otherwise every stored marker and
rotation is scanned for the smallest byte-wise Hamming distance to the
packed observed bits, and the marker is found exactly when that distance
is at most `floor(maxCorrectionBits * maxCorrectionRate)`. -/
def identify (d : Dictionary) {S : Nat} (onlyBits : Grid S)
    (maxCorrectionRate : ℚ) : Except String (Bool × Nat × Nat) :=
  if maxCorrectionRate < 0 ∨ 1 < maxCorrectionRate then
    Except.error "maxCorrectionRate must be between 0 and 1"
  else
    match pickBest (candidateList d.bytesList (packBits (gridToBits onlyBits))) with
    | none => Except.ok (false, 0, 0)
    | some (dist, id, rot) =>
        Except.ok
          (decide (dist ≤ Nat.floor ((d.maxCorrectionBits : ℚ) * maxCorrectionRate)),
           id, rot)

/-- Modelled from the spec: `getDistanceToId` (missing body, declared in
`dictionary.hpp`): byte-wise Hamming distance of the packed input bits
to marker `id`; minimum over the four stored rotations when
`allRotations` is set, rotation 0 only otherwise; out-of-range ids fail
loudly. -/
def getDistanceToId (d : Dictionary) {S : Nat} (bits : Grid S) (id : Nat)
    (allRotations : Bool) : Except String Nat :=
  if h : id < d.bytesList.length then
    Except.ok
      (if allRotations then
        min (min (hammingBytes (packBits (gridToBits bits)) (d.bytesList.get ⟨id, h⟩ 0))
                 (hammingBytes (packBits (gridToBits bits)) (d.bytesList.get ⟨id, h⟩ 1)))
            (min (hammingBytes (packBits (gridToBits bits)) (d.bytesList.get ⟨id, h⟩ 2))
                 (hammingBytes (packBits (gridToBits bits)) (d.bytesList.get ⟨id, h⟩ 3)))
      else hammingBytes (packBits (gridToBits bits)) (d.bytesList.get ⟨id, h⟩ 0))
  else Except.error "id out of range"

/-- Modelled from the spec: distance of a fresh candidate to one
already-accepted marker, taking the minimum over the accepted marker's
four stored rotations. -/
def distToMarker (cand m : MarkerRows) : Nat :=
  min (min (hammingBytes (cand 0) (m 0)) (hammingBytes (cand 0) (m 1)))
      (min (hammingBytes (cand 0) (m 2)) (hammingBytes (cand 0) (m 3)))

/-- Modelled from the spec: a candidate must also be distinguishable
from its own other three rotations. -/
def selfDistance (cand : MarkerRows) : Nat :=
  min (hammingBytes (cand 0) (cand 1))
      (min (hammingBytes (cand 0) (cand 2)) (hammingBytes (cand 0) (cand 3)))

/-- Modelled from the spec: the generator's score of a candidate is its
minimum Hamming distance to every accepted marker and to its own other
rotations. -/
def candidateScore (cand : MarkerRows) (accepted : List MarkerRows) : Nat :=
  (accepted.map (distToMarker cand)).foldl min (selfDistance cand)

/-- Modelled from the spec: for one slot the generator examines a
bounded number of random proposals (`trials` grids drawn from the
oracle stream `proposals` starting at `startIdx`) and keeps the
best-scoring one, degrading gracefully to the locally best candidate. -/
def pickBestCandidate (S : Nat) (proposals : Nat → Grid S) (startIdx trials : Nat)
    (accepted : List MarkerRows) : MarkerRows :=
  (List.range trials).foldl
    (fun best t =>
      if candidateScore best accepted <
          candidateScore (getByteListFromBits (proposals (startIdx + t))) accepted then
        getByteListFromBits (proposals (startIdx + t))
      else best)
    (getByteListFromBits (proposals startIdx))

/-- Modelled from the spec: append `k` freshly synthesized markers to the
accepted list, one slot at a time, each chosen by the bounded random
search. -/
def synthesizeMarkers (S trials : Nat) (proposals : Nat → Grid S) :
    List MarkerRows → Nat → List MarkerRows
  | accepted, 0 => accepted
  | accepted, k + 1 =>
      synthesizeMarkers S trials proposals
        (accepted ++ [pickBestCandidate S proposals (accepted.length * trials) trials accepted])
        (k : Nat)

/-- Minimum pairwise inter-marker distance of a finished marker list
(0 when fewer than two markers). -/
def minInterDistance (l : List MarkerRows) : Nat :=
  match (l.enum.flatMap (fun p => l.enum.flatMap (fun q =>
          if p.1 < q.1 then [distToMarker p.2 q.2] else []))) with
  | [] => 0
  | dd :: ds => ds.foldl min dd

/-- Modelled from the spec: `generateCustomDictionary` (missing body,
declared in `dictionary.hpp`).  The output is seeded with the first
`min(nMarkers, baseDictionary.size)` markers of the base dictionary
verbatim; the remaining slots are synthesized by the bounded random
search over the proposal stream, and `maxCorrectionBits` is derived from
the achieved minimum inter-marker distance (the unique-decoding radius
`(minDistance - 1) / 2`). -/
def generateCustomDictionary (nMarkers markerSize : Nat) (base : Dictionary)
    (trials : Nat) (proposals : Nat → Grid markerSize) : Dictionary :=
  ⟨synthesizeMarkers markerSize trials proposals (base.bytesList.take nMarkers)
      (nMarkers - (base.bytesList.take nMarkers).length),
    markerSize,
    (minInterDistance (synthesizeMarkers markerSize trials proposals
        (base.bytesList.take nMarkers)
        (nMarkers - (base.bytesList.take nMarkers).length)) - 1) / 2⟩

/-- Concrete all-false 1-by-1 grid used by the concrete instances. -/
def cexGrid : Grid 1 := fun _ _ => false

/-- Concrete one-marker dictionary built from `cexGrid`; every rotation
of its single marker has the same byte sequence. -/
def cexDict : Dictionary := ⟨[getByteListFromBits cexGrid], 1, 0⟩

/-- Concrete 2-by-2 grid with one set bit, used by witnesses. -/
def wGrid : Grid 2 := fun i j => decide (i.val = 0 ∧ j.val = 0)

/-- Concrete one-marker dictionary of side 2 built from `wGrid`. -/
def wDict : Dictionary := ⟨[getByteListFromBits wGrid], 2, 1⟩

lemma gridToBits_length {S : Nat} (b : Grid S) : (gridToBits b).length = S * S := by
  simp [gridToBits]

lemma pack8_testBit :
    ∀ (b0 b1 b2 b3 b4 b5 b6 b7 : Bool) (p : Fin 8),
      Nat.testBit
        (128 * b0.toNat + 64 * b1.toNat + 32 * b2.toNat + 16 * b3.toNat +
         8 * b4.toNat + 4 * b5.toNat + 2 * b6.toNat + b7.toNat) (7 - p.val) =
      [b0, b1, b2, b3, b4, b5, b6, b7].get p := by
  decide

lemma testBit_packedByte (l : List Bool) (k p : Nat) (hp : p < 8) :
    Nat.testBit (packedByte l k) (7 - p) = bitAt l (8 * k + p) := by
  have h := pack8_testBit (bitAt l (8 * k)) (bitAt l (8 * k + 1)) (bitAt l (8 * k + 2))
    (bitAt l (8 * k + 3)) (bitAt l (8 * k + 4)) (bitAt l (8 * k + 5)) (bitAt l (8 * k + 6))
    (bitAt l (8 * k + 7)) ⟨p, hp⟩
  rw [packedByte, h]
  interval_cases p <;> rfl

lemma packBits_length (l : List Bool) : (packBits l).length = (l.length + 7) / 8 := by
  simp [packBits]

lemma packBits_getD (l : List Bool) (k : Nat) (hk : k < (l.length + 7) / 8) :
    (packBits l).getD k 0 = packedByte l k := by
  rw [packBits, List.getD_eq_getElem _ _ (by simpa using hk)]
  simp

lemma byteListBit_packBits (l : List Bool) (n : Nat) (hn : n < l.length) :
    byteListBit (packBits l) n = bitAt l n := by
  have hk : n / 8 < (l.length + 7) / 8 := by omega
  rw [byteListBit, packBits_getD l (n / 8) hk,
    testBit_packedByte l (n / 8) (n % 8) (Nat.mod_lt _ (by norm_num))]
  congr 1
  omega

lemma bitAt_gridToBits {S : Nat} (b : Grid S) (i j : Fin S) :
    bitAt (gridToBits b) (S * i.val + j.val) = b i j := by
  have hS : 0 < S := i.pos
  have hn : S * i.val + j.val < S * S := by
    calc S * i.val + j.val < S * i.val + S := by omega
    _ = S * (i.val + 1) := by ring
    _ ≤ S * S := Nat.mul_le_mul_left S i.isLt
  rw [bitAt, List.getD_eq_getElem _ _ (by simpa [gridToBits_length] using hn)]
  simp only [gridToBits, List.getElem_ofFn]
  congr 1
  · apply Fin.ext
    simp only [Fin.coe_divNat]
    rw [show S * i.val + j.val = j.val + i.val * S by ring,
      Nat.add_mul_div_right _ _ hS, Nat.div_eq_of_lt j.isLt, Nat.zero_add]
  · apply Fin.ext
    simp only [Fin.coe_modNat]
    rw [show S * i.val + j.val = j.val + i.val * S by ring,
      Nat.add_mul_mod_self_right, Nat.mod_eq_of_lt j.isLt]

/-- C3: decoding the 0-degree byte sequence produced by the encoder
recovers the original square grid exactly, for every grid of every
side: the grid-to-0-degree-bytes map is lossless. -/
theorem decode_encode_roundTrip {S : Nat} (b : Grid S) :
    getBitsFromByteList (getByteListFromBits b 0) S = b := by
  funext i j
  have hn : S * i.val + j.val < S * S := by
    calc S * i.val + j.val < S * i.val + S := by omega
    _ = S * (i.val + 1) := by ring
    _ ≤ S * S := Nat.mul_le_mul_left S i.isLt
  show byteListBit (packBits (gridToBits (rotN (0 : Fin 4).val b))) (S * i.val + j.val) = b i j
  rw [show rotN (0 : Fin 4).val b = b from rfl,
    byteListBit_packBits _ _ (by simpa [gridToBits_length] using hn),
    bitAt_gridToBits]

/-- C8: the 90-degree clockwise rotation operator satisfies the closure
law: four applications return the original grid, for every side and
every content. -/
theorem rotate_four_times_id {S : Nat} (b : Grid S) : rotN 4 b = b := by
  funext i j
  show rotateClockwise (rotateClockwise (rotateClockwise (rotateClockwise b))) i j = b i j
  simp [rotateClockwise, Fin.rev_rev]

lemma xor_toNat (a b : Bool) : (a ^^ b).toNat = if a = b then 0 else 1 := by
  cases a <;> cases b <;> rfl

lemma bytePopcount_xor_packedByte (l₁ l₂ : List Bool) (k : Nat) :
    bytePopcount (packedByte l₁ k ^^^ packedByte l₂ k) =
      ∑ p ∈ Finset.range 8, diffInd l₁ l₂ (8 * k + p) := by
  have t : ∀ (l : List Bool) (p : Nat), p < 8 →
      Nat.testBit (packedByte l k) p = bitAt l (8 * k + (7 - p)) := by
    intro l p hp
    have hq := testBit_packedByte l k (7 - p) (by omega)
    rwa [show 7 - (7 - p) = p by omega] at hq
  simp only [bytePopcount, Nat.testBit_xor]
  rw [t l₁ 0 (by norm_num), t l₁ 1 (by norm_num), t l₁ 2 (by norm_num), t l₁ 3 (by norm_num),
    t l₁ 4 (by norm_num), t l₁ 5 (by norm_num), t l₁ 6 (by norm_num), t l₁ 7 (by norm_num),
    t l₂ 0 (by norm_num), t l₂ 1 (by norm_num), t l₂ 2 (by norm_num), t l₂ 3 (by norm_num),
    t l₂ 4 (by norm_num), t l₂ 5 (by norm_num), t l₂ 6 (by norm_num), t l₂ 7 (by norm_num)]
  simp only [xor_toNat, diffInd, Finset.sum_range_succ, Finset.sum_range_zero]
  norm_num
  omega

lemma list_sum_range_map (g : Nat → Nat) (K : Nat) :
    ((List.range K).map g).sum = ∑ k ∈ Finset.range K, g k := by
  induction K with
  | zero => simp
  | succ K ih =>
      rw [List.range_succ, List.map_append, List.sum_append, Finset.sum_range_succ, ih]
      simp

lemma sum_range_add_shift (f : Nat → Nat) (m n : Nat) :
    ∑ i ∈ Finset.range (m + n), f i =
      (∑ i ∈ Finset.range m, f i) + ∑ j ∈ Finset.range n, f (m + j) := by
  induction n with
  | zero => simp
  | succ n ih =>
      rw [show m + (n + 1) = (m + n) + 1 by omega, Finset.sum_range_succ, ih,
        Finset.sum_range_succ, Nat.add_assoc]

lemma sum_range_mul_flatten (f : Nat → Nat) (a b : Nat) :
    ∑ n ∈ Finset.range (a * b), f n =
      ∑ i ∈ Finset.range a, ∑ j ∈ Finset.range b, f (b * i + j) := by
  induction a with
  | zero => simp
  | succ a ih =>
      rw [show (a + 1) * b = a * b + b by ring, sum_range_add_shift, ih,
        Finset.sum_range_succ]
      congr 1
      apply Finset.sum_congr rfl
      intro j _
      congr 1
      ring

lemma hammingBytes_packBits (l₁ l₂ : List Bool) (h : l₁.length = l₂.length) :
    hammingBytes (packBits l₁) (packBits l₂) =
      ∑ n ∈ Finset.range l₁.length, diffInd l₁ l₂ n := by
  simp only [hammingBytes, packBits]
  rw [← h, List.zip_map', List.map_map]
  rw [list_sum_range_map]
  simp only [Function.comp_apply]
  rw [Finset.sum_congr rfl (fun k _ => bytePopcount_xor_packedByte l₁ l₂ k)]
  rw [← sum_range_mul_flatten (diffInd l₁ l₂) ((l₁.length + 7) / 8) 8]
  symm
  apply Finset.sum_subset
  · apply Finset.range_subset.mpr
    omega
  · intro n _ hn
    simp only [Finset.mem_range, not_lt] at hn
    have e1 : bitAt l₁ n = false := by
      rw [bitAt, List.getD_eq_default _ _ (by omega)]
    have e2 : bitAt l₂ n = false := by
      rw [bitAt, List.getD_eq_default _ _ (by omega)]
    simp [diffInd, e1, e2]

lemma naiveHamming_eq_sum {S : Nat} (a c : Grid S) :
    naiveHamming a c =
      ∑ i ∈ Finset.range S, ∑ j ∈ Finset.range S,
        diffInd (gridToBits a) (gridToBits c) (S * i + j) := by
  rw [← Fin.sum_univ_eq_sum_range
    (fun m => ∑ j ∈ Finset.range S, diffInd (gridToBits a) (gridToBits c) (S * m + j)) S]
  rw [naiveHamming]
  apply Finset.sum_congr rfl
  intro i _
  rw [← Fin.sum_univ_eq_sum_range
    (fun m => diffInd (gridToBits a) (gridToBits c) (S * i.val + m)) S]
  apply Finset.sum_congr rfl
  intro j _
  simp only [diffInd]
  rw [bitAt_gridToBits a i j, bitAt_gridToBits c i j]

lemma hammingBytes_gridDistance {S : Nat} (a c : Grid S) :
    hammingBytes (packBits (gridToBits a)) (packBits (gridToBits c)) = naiveHamming a c := by
  rw [hammingBytes_packBits _ _ (by rw [gridToBits_length, gridToBits_length])]
  rw [gridToBits_length, sum_range_mul_flatten _ S S, naiveHamming_eq_sum]

lemma hammingBytes_self : ∀ xs : List Nat, hammingBytes xs xs = 0
  | [] => rfl
  | x :: xs => by
      have ih := hammingBytes_self xs
      simp only [hammingBytes, List.zip_cons_cons, List.map_cons, List.sum_cons] at ih ⊢
      rw [Nat.xor_self, show bytePopcount 0 = 0 from rfl]
      omega

lemma candLtP_irrefl (c : Nat × Nat × Nat) : ¬ candLtP c c := by
  simp only [candLtP]
  omega

lemma candLtP_trans {a b c : Nat × Nat × Nat} (h1 : candLtP a b) (h2 : candLtP b c) :
    candLtP a c := by
  simp only [candLtP] at h1 h2 ⊢
  omega

lemma candLtP_antisymm {a b : Nat × Nat × Nat} (h1 : ¬ candLtP a b) (h2 : ¬ candLtP b a) :
    a = b := by
  obtain ⟨a1, a2, a3⟩ := a
  obtain ⟨b1, b2, b3⟩ := b
  simp only [candLtP, Prod.mk.injEq] at h1 h2 ⊢
  omega

lemma candLtP_not_lt {a x : Nat × Nat × Nat} (h : ¬ candLtP x a) :
    a = x ∨ candLtP a x := by
  obtain ⟨a1, a2, a3⟩ := a
  obtain ⟨x1, x2, x3⟩ := x
  simp only [candLtP, Prod.mk.injEq] at h ⊢
  omega

lemma foldl_pick_spec (l : List (Nat × Nat × Nat)) :
    ∀ a : Nat × Nat × Nat,
      (l.foldl (fun best c' => if candLtP c' best then c' else best) a = a ∨
        l.foldl (fun best c' => if candLtP c' best then c' else best) a ∈ l) ∧
      (¬ candLtP a (l.foldl (fun best c' => if candLtP c' best then c' else best) a)) ∧
      (∀ x ∈ l, ¬ candLtP x (l.foldl (fun best c' => if candLtP c' best then c' else best) a)) := by
  induction l with
  | nil =>
      intro a
      exact ⟨Or.inl rfl, candLtP_irrefl a, by simp⟩
  | cons x l ih =>
      intro a
      simp only [List.foldl_cons]
      by_cases hx : candLtP x a
      · rw [if_pos hx]
        obtain ⟨hmem, hxbest, hall⟩ := ih x
        refine ⟨?_, ?_, ?_⟩
        · rcases hmem with h | h
          · exact Or.inr (by rw [h]; exact List.mem_cons_self x l)
          · exact Or.inr (List.mem_cons_of_mem x h)
        · intro ha
          exact hxbest (candLtP_trans hx ha)
        · intro y hy
          rcases List.mem_cons.mp hy with rfl | hy'
          · exact hxbest
          · exact hall y hy'
      · rw [if_neg hx]
        obtain ⟨hmem, habest, hall⟩ := ih a
        refine ⟨?_, habest, ?_⟩
        · rcases hmem with h | h
          · exact Or.inl h
          · exact Or.inr (List.mem_cons_of_mem x h)
        · intro y hy
          rcases List.mem_cons.mp hy with rfl | hy'
          · intro hxr
            rcases candLtP_not_lt hx with heq | halt
            · exact habest (heq.symm ▸ hxr)
            · exact habest (candLtP_trans halt hxr)
          · exact hall y hy'

lemma pickBest_spec {l : List (Nat × Nat × Nat)} (hne : l ≠ []) :
    ∃ b, pickBest l = some b ∧ b ∈ l ∧ ∀ x ∈ l, ¬ candLtP x b := by
  match l, hne with
  | c :: rest, _ =>
    obtain ⟨hmem, hc, hall⟩ := foldl_pick_spec rest c
    refine ⟨_, rfl, ?_, ?_⟩
    · rcases hmem with h | h
      · rw [h]; exact List.mem_cons_self c rest
      · exact List.mem_cons_of_mem c h
    · intro x hx
      rcases List.mem_cons.mp hx with rfl | hx'
      · exact hc
      · exact hall x hx'

lemma mem_candidateList {markers : List MarkerRows} {obs : List Nat}
    {c : Nat × Nat × Nat} :
    c ∈ candidateList markers obs ↔
      ∃ i, i < markers.length ∧ ∃ r : Fin 4,
        c = (hammingBytes obs (storedBytes markers i r), i, r.val) := by
  simp only [candidateList, List.mem_flatMap, List.mem_map, List.mem_range,
    List.mem_finRange]
  constructor
  · rintro ⟨i, hi, r, -, rfl⟩
    exact ⟨i, hi, r, rfl⟩
  · rintro ⟨i, hi, r, rfl⟩
    exact ⟨i, hi, r, trivial, rfl⟩

lemma candidateList_ne_nil {markers : List MarkerRows} {obs : List Nat}
    (h : markers ≠ []) : candidateList markers obs ≠ [] := by
  have h0 : 0 < markers.length := List.length_pos.mpr h
  exact List.ne_nil_of_mem (mem_candidateList.mpr ⟨0, h0, 0, rfl⟩)

lemma identify_valid_rate (d : Dictionary) {S : Nat} (b : Grid S) (rate : ℚ)
    (h0 : 0 ≤ rate) (h1 : rate ≤ 1) :
    identify d b rate =
      match pickBest (candidateList d.bytesList (packBits (gridToBits b))) with
      | none => Except.ok (false, 0, 0)
      | some (dist, id, rot) =>
          Except.ok
            (decide (dist ≤ Nat.floor ((d.maxCorrectionBits : ℚ) * rate)), id, rot) := by
  have hcond : ¬ (rate < 0 ∨ 1 < rate) := by
    push_neg
    exact ⟨h0, h1⟩
  simp only [identify]
  rw [if_neg hcond]

/-- C1: for a correction rate in `[0,1]` and a nonempty dictionary,
`identify` returns a `(id, rotation)` pair whose stored rotation byte
sequence has the smallest Hamming distance to the packed observed bits,
and reports found exactly when that smallest distance is at most
`floor(maxCorrectionBits * maxCorrectionRate)`. -/
theorem identify_nearest (d : Dictionary) {S : Nat} (b : Grid S) (rate : ℚ)
    (hS : S = d.markerSize) (h0 : 0 ≤ rate) (h1 : rate ≤ 1)
    (hne : d.bytesList ≠ []) :
    ∃ (id : Nat) (r : Fin 4) (found : Bool),
      identify d b rate = Except.ok (found, id, r.val) ∧
      id < d.bytesList.length ∧
      (∀ (id' : Nat) (r' : Fin 4), id' < d.bytesList.length →
        storedDist d b id r ≤ storedDist d b id' r') ∧
      (found = true ↔
        storedDist d b id r ≤ Nat.floor ((d.maxCorrectionBits : ℚ) * rate)) := by
  obtain ⟨bb, hpick, hmem, hmin⟩ :=
    pickBest_spec (@candidateList_ne_nil d.bytesList (packBits (gridToBits b)) hne)
  obtain ⟨i, hi, r, rfl⟩ := mem_candidateList.mp hmem
  refine ⟨i, r,
    decide (hammingBytes (packBits (gridToBits b)) (storedBytes d.bytesList i r) ≤
      Nat.floor ((d.maxCorrectionBits : ℚ) * rate)), ?_, hi, ?_, ?_⟩
  · rw [identify_valid_rate d b rate h0 h1, hpick]
  · intro id' r' hid'
    have hc := hmin _ (mem_candidateList.mpr ⟨id', hid', r', rfl⟩)
    simp only [storedDist]
    simp [candLtP] at hc
    omega
  · simp only [storedDist, decide_eq_true_eq]

/-- C1 witness at a concrete one-marker dictionary of side 2 with
correction rate 1. -/
theorem identify_nearest_witness :
    ∃ (id : Nat) (r : Fin 4) (found : Bool),
      identify wDict wGrid 1 = Except.ok (found, id, r.val) ∧
      id < wDict.bytesList.length ∧
      (∀ (id' : Nat) (r' : Fin 4), id' < wDict.bytesList.length →
        storedDist wDict wGrid id r ≤ storedDist wDict wGrid id' r') ∧
      (found = true ↔
        storedDist wDict wGrid id r ≤ Nat.floor ((wDict.maxCorrectionBits : ℚ) * 1)) :=
  identify_nearest wDict wGrid 1 rfl (by norm_num) (by norm_num)
    (List.cons_ne_nil _ _)

/-- C7: the returned pair is deterministic under ties: any other
candidate attaining the same (minimum) distance has a larger id, or the
same id and a rotation index at least as large. -/
theorem identify_tiebreak (d : Dictionary) {S : Nat} (b : Grid S) (rate : ℚ)
    (h0 : 0 ≤ rate) (h1 : rate ≤ 1) (hne : d.bytesList ≠ []) :
    ∃ (id : Nat) (r : Fin 4) (found : Bool),
      identify d b rate = Except.ok (found, id, r.val) ∧
      id < d.bytesList.length ∧
      (∀ (id' : Nat) (r' : Fin 4), id' < d.bytesList.length →
        storedDist d b id r ≤ storedDist d b id' r') ∧
      (∀ (id' : Nat) (r' : Fin 4), id' < d.bytesList.length →
        storedDist d b id' r' = storedDist d b id r →
        id < id' ∨ (id = id' ∧ r.val ≤ r'.val)) := by
  obtain ⟨bb, hpick, hmem, hmin⟩ :=
    pickBest_spec (@candidateList_ne_nil d.bytesList (packBits (gridToBits b)) hne)
  obtain ⟨i, hi, r, rfl⟩ := mem_candidateList.mp hmem
  refine ⟨i, r,
    decide (hammingBytes (packBits (gridToBits b)) (storedBytes d.bytesList i r) ≤
      Nat.floor ((d.maxCorrectionBits : ℚ) * rate)), ?_, hi, ?_, ?_⟩
  · rw [identify_valid_rate d b rate h0 h1, hpick]
  · intro id' r' hid'
    have hc := hmin _ (mem_candidateList.mpr ⟨id', hid', r', rfl⟩)
    simp only [storedDist]
    simp [candLtP] at hc
    omega
  · intro id' r' hid' heq
    have hc := hmin _ (mem_candidateList.mpr ⟨id', hid', r', rfl⟩)
    simp only [storedDist] at heq
    simp [candLtP] at hc
    omega

/-- C7 witness at a concrete one-marker dictionary of side 2. -/
theorem identify_tiebreak_witness :
    ∃ (id : Nat) (r : Fin 4) (found : Bool),
      identify wDict wGrid 1 = Except.ok (found, id, r.val) ∧
      id < wDict.bytesList.length ∧
      (∀ (id' : Nat) (r' : Fin 4), id' < wDict.bytesList.length →
        storedDist wDict wGrid id r ≤ storedDist wDict wGrid id' r') ∧
      (∀ (id' : Nat) (r' : Fin 4), id' < wDict.bytesList.length →
        storedDist wDict wGrid id' r' = storedDist wDict wGrid id r →
        id < id' ∨ (id = id' ∧ r.val ≤ r'.val)) :=
  identify_tiebreak wDict wGrid 1 (by norm_num) (by norm_num) (List.cons_ne_nil _ _)

/-- C9: a `maxCorrectionRate` outside `[0,1]` is reported as a usage
error at the call boundary; no identification result is produced. -/
theorem identify_invalid_rate_error (d : Dictionary) {S : Nat} (b : Grid S)
    (rate : ℚ) (h : rate < 0 ∨ 1 < rate) :
    identify d b rate = Except.error "maxCorrectionRate must be between 0 and 1" := by
  simp only [identify]
  rw [if_pos h]

/-- C9 witness at rate 2. -/
theorem identify_invalid_rate_error_witness :
    identify cexDict cexGrid 2 =
      Except.error "maxCorrectionRate must be between 0 and 1" :=
  identify_invalid_rate_error cexDict cexGrid 2 (Or.inr (by norm_num))

/-- C2 (amended): identify on the exact `r`-rotated grid of marker `id`
returns `(found = true, id, r)` provided every lexicographically earlier
`(id', rotation')` candidate has positive Hamming distance to the
observed bytes; without that proviso a tie at distance 0 is resolved to
the earlier candidate. -/
theorem identify_self_rotation (d : Dictionary) {S : Nat} (m : Grid S) (id : Nat)
    (r : Fin 4) (rate : ℚ) (h0 : 0 ≤ rate) (h1 : rate ≤ 1)
    (hid : id < d.bytesList.length)
    (hrow : storedBytes d.bytesList id r = packBits (gridToBits (rotN r.val m)))
    (hearlier : ∀ (id' : Nat) (r' : Fin 4), id' < d.bytesList.length →
      (id' < id ∨ (id' = id ∧ r'.val < r.val)) →
      0 < storedDist d (rotN r.val m) id' r') :
    identify d (rotN r.val m) rate = Except.ok (true, id, r.val) := by
  have hne : d.bytesList ≠ [] := by
    intro h
    rw [h] at hid
    simp at hid
  obtain ⟨bb, hpick, hmem, hmin⟩ :=
    pickBest_spec
      (@candidateList_ne_nil d.bytesList (packBits (gridToBits (rotN r.val m))) hne)
  have hzero :
      hammingBytes (packBits (gridToBits (rotN r.val m)))
        (storedBytes d.bytesList id r) = 0 := by
    rw [hrow]
    exact hammingBytes_self _
  have htmem :
      ((0 : Nat), id, r.val) ∈
        candidateList d.bytesList (packBits (gridToBits (rotN r.val m))) :=
    mem_candidateList.mpr ⟨id, hid, r, by rw [hzero]⟩
  have hbb : bb = ((0 : Nat), id, r.val) := by
    apply candLtP_antisymm
    · intro hlt
      obtain ⟨i', hi', r', rfl⟩ := mem_candidateList.mp hmem
      simp [candLtP] at hlt
      obtain ⟨hz, hearl⟩ := hlt
      have hpos := hearlier i' r' hi' (by omega)
      simp only [storedDist] at hpos
      omega
    · exact hmin _ htmem
  rw [identify_valid_rate d (rotN r.val m) rate h0 h1, hpick, hbb]
  simp

/-- C2 counterexample: in the one-marker dictionary built from the
all-false 1-by-1 grid all four rotations coincide, so `identify` on the
once-rotated grid (zero flipped bits) returns rotation 0, not the
claimed rotation 1. -/
theorem identify_self_rotation_cex :
    identify cexDict (rotN 1 cexGrid) 1 = Except.ok (true, 0, 0) ∧
      Except.ok (true, 0, 0) ≠
        (Except.ok (true, 0, 1) : Except String (Bool × Nat × Nat)) := by
  constructor
  · rw [identify_valid_rate cexDict (rotN 1 cexGrid) 1 (by norm_num) (by norm_num)]
    have hp :
        pickBest (candidateList cexDict.bytesList
          (packBits (gridToBits (rotN 1 cexGrid)))) = some (0, 0, 0) := by
      decide
    rw [hp]
    show Except.ok
        (decide ((0 : Nat) ≤ Nat.floor ((cexDict.maxCorrectionBits : ℚ) * 1)), 0, 0) =
      Except.ok (true, 0, 0)
    rw [decide_eq_true (Nat.zero_le _)]
  · intro h
    simp only [Except.ok.injEq, Prod.mk.injEq] at h
    omega

/-- C2 witness: in the side-2 dictionary the single marker's rotation 1
is recovered exactly. -/
theorem identify_self_rotation_witness :
    identify wDict (rotN (1 : Fin 4).val wGrid) 1 =
      Except.ok (true, 0, (1 : Fin 4).val) := by
  apply identify_self_rotation wDict wGrid 0 1 1 (by norm_num) (by norm_num)
    (by simp [wDict]) rfl
  intro id' r' hid' hlex
  have hid0 : id' = 0 := by
    simp [wDict] at hid'
    omega
  subst hid0
  have hr0 : r' = 0 := by
    rcases hlex with h | ⟨-, h⟩
    · omega
    · apply Fin.ext
      simpa using Nat.lt_one_iff.mp (by simpa using h)
  subst hr0
  decide

/-- C4: `getDistanceToId` agrees with the naive bit-by-bit reference
Hamming distance: for a marker whose stored row encodes grid `m`, it is
the minimum over the four rotations of `m` when `allRotations` is true,
and the distance to rotation 0 only when false. -/
theorem getDistanceToId_matches_naive (d : Dictionary) {S : Nat} (bits : Grid S)
    (id : Nat) (m : Grid S) (h : id < d.bytesList.length)
    (hrow : d.bytesList.get ⟨id, h⟩ = getByteListFromBits m) (allR : Bool) :
    getDistanceToId d bits id allR = Except.ok (naiveDistanceToMarker bits m allR) := by
  have e0 : getByteListFromBits m 0 = packBits (gridToBits (rotN 0 m)) := rfl
  have e1 : getByteListFromBits m 1 = packBits (gridToBits (rotN 1 m)) := rfl
  have e2 : getByteListFromBits m 2 = packBits (gridToBits (rotN 2 m)) := rfl
  have e3 : getByteListFromBits m 3 = packBits (gridToBits (rotN 3 m)) := rfl
  simp only [getDistanceToId]
  rw [dif_pos h, hrow, e0, e1, e2, e3,
    hammingBytes_gridDistance bits (rotN 0 m), hammingBytes_gridDistance bits (rotN 1 m),
    hammingBytes_gridDistance bits (rotN 2 m), hammingBytes_gridDistance bits (rotN 3 m)]
  rfl

/-- C4 witness at the concrete side-2 dictionary. -/
theorem getDistanceToId_matches_naive_witness :
    getDistanceToId wDict wGrid 0 true =
      Except.ok (naiveDistanceToMarker wGrid wGrid true) :=
  getDistanceToId_matches_naive wDict wGrid 0 wGrid (by simp [wDict]) rfl true

lemma foldl_encode_aux (S : Nat) (proposals : Nat → Grid S) (startIdx : Nat)
    (accepted : List MarkerRows) :
    ∀ (l : List Nat) (a : MarkerRows), (∃ g : Grid S, a = getByteListFromBits g) →
      ∃ g : Grid S,
        l.foldl (fun best t =>
          if candidateScore best accepted <
              candidateScore (getByteListFromBits (proposals (startIdx + t))) accepted then
            getByteListFromBits (proposals (startIdx + t))
          else best) a = getByteListFromBits g := by
  intro l
  induction l with
  | nil =>
      intro a ha
      simpa using ha
  | cons t l ih =>
      intro a ha
      simp only [List.foldl_cons]
      by_cases hc : candidateScore a accepted <
          candidateScore (getByteListFromBits (proposals (startIdx + t))) accepted
      · rw [if_pos hc]
        exact ih _ ⟨proposals (startIdx + t), rfl⟩
      · rw [if_neg hc]
        exact ih _ ha

lemma pickBestCandidate_encode (S : Nat) (proposals : Nat → Grid S)
    (startIdx trials : Nat) (accepted : List MarkerRows) :
    ∃ g : Grid S,
      pickBestCandidate S proposals startIdx trials accepted = getByteListFromBits g :=
  foldl_encode_aux S proposals startIdx accepted (List.range trials) _
    ⟨proposals startIdx, rfl⟩

lemma getByteListFromBits_row_length {S : Nat} (g : Grid S) (r : Fin 4) :
    (getByteListFromBits g r).length = (S * S + 7) / 8 := by
  simp [getByteListFromBits, packBits_length, gridToBits_length]

lemma synthesizeMarkers_spec (S trials : Nat) (proposals : Nat → Grid S) :
    ∀ (k : Nat) (acc : List MarkerRows),
      ∃ ext : List MarkerRows,
        synthesizeMarkers S trials proposals acc k = acc ++ ext ∧
        ext.length = k ∧
        ∀ row ∈ ext, ∃ g : Grid S, row = getByteListFromBits g := by
  intro k
  induction k with
  | zero =>
      intro acc
      exact ⟨[], by simp [synthesizeMarkers], rfl, by simp⟩
  | succ k ih =>
      intro acc
      obtain ⟨ext, heq, hlen, hrows⟩ :=
        ih (acc ++ [pickBestCandidate S proposals (acc.length * trials) trials acc])
      refine ⟨pickBestCandidate S proposals (acc.length * trials) trials acc :: ext,
        ?_, ?_, ?_⟩
      · rw [show synthesizeMarkers S trials proposals acc (k + 1) =
            synthesizeMarkers S trials proposals
              (acc ++ [pickBestCandidate S proposals (acc.length * trials) trials acc]) k
          from rfl, heq]
        simp
      · simp [hlen]
      · intro row hrow
        rcases List.mem_cons.mp hrow with rfl | hr
        · exact pickBestCandidate_encode S proposals (acc.length * trials) trials acc
        · exact hrows row hr

/-- C6: for positive `nMarkers` and `markerSize` and a base dictionary
whose rows have the byte width of side `markerSize`, the generated
dictionary has exactly `nMarkers` markers of side `markerSize`; its
front is the first `min(nMarkers, base.size)` base markers verbatim, and
when the base already covers `nMarkers` the output is exactly that
prefix (nothing is synthesized). -/
theorem generateCustomDictionary_spec (nMarkers markerSize : Nat) (base : Dictionary)
    (trials : Nat) (proposals : Nat → Grid markerSize)
    (hn : 0 < nMarkers) (hS : 0 < markerSize)
    (hbase : ∀ row ∈ base.bytesList, ∀ r : Fin 4,
      (row r).length = (markerSize * markerSize + 7) / 8) :
    (generateCustomDictionary nMarkers markerSize base trials proposals).markerSize
        = markerSize ∧
    (generateCustomDictionary nMarkers markerSize base trials proposals).bytesList.length
        = nMarkers ∧
    (generateCustomDictionary nMarkers markerSize base trials
        proposals).bytesList.take (min nMarkers base.bytesList.length)
      = base.bytesList.take nMarkers ∧
    (∀ row ∈ (generateCustomDictionary nMarkers markerSize base trials
        proposals).bytesList,
      ∀ r : Fin 4, (row r).length = (markerSize * markerSize + 7) / 8) ∧
    (nMarkers ≤ base.bytesList.length →
      (generateCustomDictionary nMarkers markerSize base trials proposals).bytesList
        = base.bytesList.take nMarkers) := by
  obtain ⟨ext, heq, hlen, hrows⟩ := synthesizeMarkers_spec markerSize trials proposals
    (nMarkers - (base.bytesList.take nMarkers).length) (base.bytesList.take nMarkers)
  have hbl : (generateCustomDictionary nMarkers markerSize base trials
      proposals).bytesList = base.bytesList.take nMarkers ++ ext := heq
  have hseedlen : (base.bytesList.take nMarkers).length
      = min nMarkers base.bytesList.length := List.length_take _ _
  have hseedle : (base.bytesList.take nMarkers).length ≤ nMarkers := by
    rw [hseedlen]
    omega
  refine ⟨rfl, ?_, ?_, ?_, ?_⟩
  · rw [hbl, List.length_append, hlen]
    omega
  · rw [hbl, ← hseedlen, List.take_left]
  · intro row hrow r
    rw [hbl] at hrow
    rcases List.mem_append.mp hrow with hseed | hext
    · exact hbase row (List.take_subset _ _ hseed) r
    · obtain ⟨g, rfl⟩ := hrows row hext
      exact getByteListFromBits_row_length g r
  · intro hcov
    have hz : ext.length = 0 := by
      rw [hlen, hseedlen]
      omega
    rw [hbl, List.length_eq_zero.mp hz, List.append_nil]

/-- C6 witness: generating 2 markers of side 2 seeded by the one-marker
side-2 dictionary. -/
theorem generateCustomDictionary_spec_witness :
    (generateCustomDictionary 2 2 wDict 1 (fun _ => wGrid)).markerSize = 2 ∧
    (generateCustomDictionary 2 2 wDict 1 (fun _ => wGrid)).bytesList.length = 2 ∧
    (generateCustomDictionary 2 2 wDict 1
        (fun _ => wGrid)).bytesList.take (min 2 wDict.bytesList.length)
      = wDict.bytesList.take 2 ∧
    (∀ row ∈ (generateCustomDictionary 2 2 wDict 1 (fun _ => wGrid)).bytesList,
      ∀ r : Fin 4, (row r).length = (2 * 2 + 7) / 8) ∧
    (2 ≤ wDict.bytesList.length →
      (generateCustomDictionary 2 2 wDict 1 (fun _ => wGrid)).bytesList
        = wDict.bytesList.take 2) :=
  generateCustomDictionary_spec 2 2 wDict 1 (fun _ => wGrid)
    (by norm_num) (by norm_num) (by decide)

/-- C10: the default-constructed dictionary (null buffer, marker size 0,
dictionary size 0, correction budget 0) is empty, and using it as the
generator's base seeds nothing: the whole output is synthesized from
scratch and still has `nMarkers` markers. -/
theorem defaultDictionary_empty_generator :
    (Dictionary.ofBuffer [] 0 0 0).bytesList = [] ∧
    (∀ (n S trials : Nat) (proposals : Nat → Grid S),
      (generateCustomDictionary n S (Dictionary.ofBuffer [] 0 0 0) trials
          proposals).bytesList
        = synthesizeMarkers S trials proposals [] n) ∧
    (∀ (n S trials : Nat) (proposals : Nat → Grid S),
      (generateCustomDictionary n S (Dictionary.ofBuffer [] 0 0 0) trials
          proposals).bytesList.length = n) := by
  have hempty : (Dictionary.ofBuffer [] 0 0 0).bytesList = [] := by
    simp [Dictionary.ofBuffer]
  have hgen : ∀ (n S trials : Nat) (P : Nat → Grid S),
      (generateCustomDictionary n S (Dictionary.ofBuffer [] 0 0 0) trials P).bytesList
        = synthesizeMarkers S trials P [] n := by
    intro n S trials P
    show synthesizeMarkers S trials P
        ((Dictionary.ofBuffer [] 0 0 0).bytesList.take n)
        (n - ((Dictionary.ofBuffer [] 0 0 0).bytesList.take n).length) = _
    rw [hempty, List.take_nil]
    simp
  refine ⟨hempty, hgen, ?_⟩
  intro n S trials P
  rw [hgen n S trials P]
  obtain ⟨ext, heq, hlen, -⟩ := synthesizeMarkers_spec S trials P n []
  rw [heq]
  simpa using hlen

end Aruco
